import Mathlib

/-!
Shallow embedding of the "Five & Slide" rules engine
(`src/engine/types.ts`, `src/engine/state.ts`, `src/engine/engine.ts`,
`src/engine/bots.ts`) together with proofs about the engine's stated
properties.

Stacks are lists bottom-to-top (index 0 = bottom, last = top), exactly as
the TypeScript arrays.  `Record<PlayerID, number>` fields are embedded as
total functions `PlayerID → Nat`; the engine only ever reads keys of
players present in the state, where the two representations agree.
-/

namespace FiveSlide

/-- `PlayerID` from `types.ts`: an opaque string identifier. -/
abbrev PlayerID := String

/-- `Token` from `types.ts`. -/
structure Token where
  player : PlayerID
deriving DecidableEq, Repr

/-- The two move directions of `MoveAction.dir`. -/
inductive Dir where
  | forward
  | backward
deriving DecidableEq, Repr

/-- `MoveAction` from `types.ts` (`from` is a Lean keyword, hence `fromIdx`). -/
structure MoveAction where
  fromIdx : Nat
  dir : Dir
  count : Nat
deriving DecidableEq, Repr

/-- `Landing` from `types.ts`; the TypeScript `null` case is `Option.none`
at use sites. -/
inductive Landing where
  | space (index : Nat)
  | exit
deriving DecidableEq, Repr

/-- The `kind` field of `PlayerInfo`. -/
inductive PlayerKind where
  | human
  | bot
deriving DecidableEq, Repr

/-- The bot difficulty tiers. -/
inductive Difficulty where
  | easy
  | medium
  | hard
deriving DecidableEq, Repr

/-- `PlayerInfo` from `types.ts`. -/
structure PlayerInfo where
  id : PlayerID
  name : String
  color : String
  kind : PlayerKind
  difficulty : Option Difficulty := none
deriving DecidableEq, Repr

/-- A board: the `Token[][]` of `GameState.board`. -/
abbrev Board := List (List Token)

/-- `GameState` from `types.ts`.  The `unplaced` and `exited` records are
embedded as total functions. -/
structure GameState where
  board : Board
  unplaced : PlayerID → Nat
  exited : PlayerID → Nat
  players : List PlayerInfo
  currentIndex : Nat
  winner : Option PlayerID
  message : Option String

/-- The tagged union `LegalAction` from `types.ts`. -/
inductive LegalAction where
  | move (m : MoveAction)
  | place
  | bubble (space : Nat) (tokenIndex : Nat)
deriving DecidableEq, Repr

/-- Pointwise update of a `Record<PlayerID, number>` field. -/
def setMap (m : PlayerID → Nat) (k : PlayerID) (v : Nat) : PlayerID → Nat :=
  fun q => if q = k then v else m q

/-- `state.players[state.currentIndex].id` as used throughout the engine. -/
def currentPlayer (s : GameState) : PlayerID :=
  ((s.players.get? s.currentIndex).map PlayerInfo.id).getD ""

/-- `nextPlayerIndex` from `state.ts`. -/
def nextPlayerIndex (s : GameState) : Nat :=
  (s.currentIndex + 1) % s.players.length

/-- `INITIAL_TOKENS` from `state.ts`. -/
def INITIAL_TOKENS : Nat := 7

/-- `createInitialState` from `state.ts`.  Keys absent from the records
read as 0 in this embedding. -/
def createInitialState (players : List PlayerInfo) : GameState where
  board := List.replicate 8 []
  unplaced := fun pid => if players.any (fun p => p.id = pid) then INITIAL_TOKENS else 0
  exited := fun _ => 0
  players := players
  currentIndex := 0
  winner := none
  message := none

/-- `isPinned` from `engine.ts`: `index < stack.length - 1`. -/
def isPinned (stack : List Token) (index : Nat) : Bool :=
  decide (index < stack.length - 1)

/-- `topContiguousCount` from `engine.ts`: length of the maximal run of
`player`'s tokens counted downward from the top of the stack. -/
def topContiguousCount (stack : List Token) (player : PlayerID) : Nat :=
  (stack.reverse.takeWhile (fun t => t.player = player)).length

/-- Helper for `lowestEmptyIndex`: scan from the front, tracking the index,
mirroring `Array.prototype.findIndex`. -/
def lowestEmptyIndexAux : Board → Nat → Option Nat
  | [], _ => none
  | s :: rest, i => if s.length = 0 then some i else lowestEmptyIndexAux rest (i + 1)

/-- `lowestEmptyIndex` from `engine.ts`; `-1` becomes `none`. -/
def lowestEmptyIndex (board : Board) : Option Nat :=
  lowestEmptyIndexAux board 0

/-- `spacesFilled(board, start, stop)` from `engine.ts`: every space with
index in `[start, stop]` is non-empty. -/
def spacesFilled (board : Board) (start stop : Nat) : Bool :=
  (List.range' start (stop + 1 - start)).all (fun i => !(board.getD i []).isEmpty)

/-- `placementDestination` from `engine.ts`. -/
def placementDestination (s : GameState) : Option Nat :=
  match lowestEmptyIndex s.board with
  | none => none
  | some empty =>
    if spacesFilled s.board 1 6 ∧ (s.board.getD 0 []).length = 0 then some 0
    else if spacesFilled s.board 0 6 ∧ (s.board.getD 7 []).length = 0 then some 7
    else some empty

/-- `canPlace` from `engine.ts`. -/
def canPlace (s : GameState) : Bool :=
  match placementDestination s with
  | none => false
  | some dest =>
    decide (0 < s.unplaced (currentPlayer s) ∧ (s.board.getD dest []).length < 5)

/-- The mutable loop state of the slide loops inside `resolveMove`:
the working board, the still-carried block (bottom first), the first
landing seen, and `placedOutsideSource`. -/
structure SlideState where
  board : Board
  moved : List Token
  landing : Option Landing
  placed : Nat
deriving Repr

/-- One iteration of the slide loop body at position `pos`: if the space has
free capacity take as much of the carried block as fits (bottom first). -/
def slideStep (st : SlideState) (pos : Nat) : SlideState :=
  let stack := st.board.getD pos []
  let capacity := 5 - stack.length
  if 0 < capacity then
    let take := min capacity st.moved.length
    { board := st.board.set pos (stack ++ st.moved.take take)
      moved := st.moved.drop take
      landing := if st.landing = none then some (Landing.space pos) else st.landing
      placed := st.placed + take }
  else st

/-- The forward slide loop of `resolveMove`: positions `pos, pos+1, ...`
while inside the board (tracked by `fuel = board.length - pos`) and tokens
remain. -/
def slideForward : Nat → Nat → SlideState → SlideState
  | 0, _, st => st
  | fuel + 1, pos, st =>
    if st.moved = [] then st
    else slideForward fuel (pos + 1) (slideStep st pos)

/-- The backward slide loop of `resolveMove`: positions `pos, pos-1, ..., 0`
while tokens remain. -/
def slideBackward : Nat → SlideState → SlideState
  | 0, st => if st.moved = [] then st else slideStep st 0
  | p + 1, st => if st.moved = [] then st else slideBackward p (slideStep st (p + 1))

/-- The result record of `resolveMove`. -/
structure MoveRes where
  board : Board
  landing : Option Landing
  exited : Nat
deriving DecidableEq, Repr

/-- `resolveMove` from `engine.ts`. -/
def resolveMove (board : Board) (a : MoveAction) : Option MoveRes :=
  match a.dir with
  | .forward =>
    let target := a.fromIdx + 1
    let sourceStack := board.getD a.fromIdx []
    if sourceStack.length < a.count then none
    else
      let moved := sourceStack.drop (sourceStack.length - a.count)
      let working := board.set a.fromIdx (sourceStack.take (sourceStack.length - a.count))
      let st := slideForward (working.length - target) target ⟨working, moved, none, 0⟩
      if st.moved = [] then some ⟨st.board, st.landing, 0⟩
      else
        some ⟨st.board, if st.landing = none then some Landing.exit else st.landing,
          st.moved.length⟩
  | .backward =>
    if a.fromIdx = 0 then none
    else
      let target := a.fromIdx - 1
      let sourceStack := board.getD a.fromIdx []
      if sourceStack.length < a.count then none
      else
        let moved := sourceStack.drop (sourceStack.length - a.count)
        let working := board.set a.fromIdx (sourceStack.take (sourceStack.length - a.count))
        let st := slideBackward target ⟨working, moved, none, 0⟩
        let final :=
          if st.moved = [] then st.board
          else st.board.set a.fromIdx ((st.board.getD a.fromIdx []) ++ st.moved)
        if st.placed = 0 then none
        else some ⟨final, st.landing, 0⟩

/-- `predictLandingForMove` from `engine.ts`. -/
def predictLandingForMove (s : GameState) (a : MoveAction) : Option Landing :=
  match resolveMove s.board a with
  | some r => r.landing
  | none => none

/-- The candidate counts `1 .. maxCount` enumerated by `getMoveOptions`. -/
def countsUpTo (n : Nat) : List Nat :=
  (List.range n).map (· + 1)

/-- `getMoveOptions` from `engine.ts`, preserving the enumeration order:
per space, forward counts ascending then backward counts ascending. -/
def getMoveOptions (s : GameState) : List MoveAction :=
  let player := currentPlayer s
  s.board.enum.flatMap (fun p =>
    let maxCount := topContiguousCount p.2 player
    [Dir.forward, Dir.backward].flatMap (fun dir =>
      (countsUpTo maxCount).filterMap (fun count =>
        let a : MoveAction := ⟨p.1, dir, count⟩
        if (resolveMove s.board a).isSome then some a else none)))

/-- `getBubbleOptions` from `engine.ts`. -/
def getBubbleOptions (s : GameState) : List (Nat × Nat) :=
  let player := currentPlayer s
  s.board.enum.flatMap (fun p =>
    p.2.enum.filterMap (fun q =>
      if q.2.player = player ∧ isPinned p.2 q.1 then some (p.1, q.1) else none))

/-- `getLegalActions` from `engine.ts`. -/
def getLegalActions (s : GameState) : List LegalAction :=
  if s.winner ≠ none then []
  else
    let moveOptions := getMoveOptions s
    let current := currentPlayer s
    let placementLegal : Bool :=
      match placementDestination s with
      | none => false
      | some dest => decide (0 < s.unplaced current ∧ (s.board.getD dest []).length < 5)
    if moveOptions ≠ [] then
      moveOptions.map LegalAction.move ++ (if placementLegal then [LegalAction.place] else [])
    else if placementLegal then [LegalAction.place]
    else (getBubbleOptions s).map (fun b => LegalAction.bubble b.1 b.2)

/-- `applyMove` from `engine.ts`. -/
def applyMove (s : GameState) (a : MoveAction) : GameState :=
  match resolveMove s.board a with
  | none => s
  | some res =>
    let player := currentPlayer s
    let newExited := setMap s.exited player (s.exited player + res.exited)
    let winner : Option PlayerID := if 5 ≤ newExited player then some player else none
    let nextIndex := if winner.isSome then s.currentIndex else nextPlayerIndex s
    { s with
      board := res.board
      exited := newExited
      currentIndex := nextIndex
      winner := winner
      message :=
        if 0 < res.exited then
          some (player ++ " exited " ++ toString res.exited ++ " token(s).")
        else s.message }

/-- `applyPlace` from `engine.ts`. -/
def applyPlace (s : GameState) : GameState :=
  match placementDestination s with
  | none => s
  | some dest =>
    let player := currentPlayer s
    if s.unplaced player ≤ 0 ∨ 5 ≤ (s.board.getD dest []).length then s
    else
      { s with
        board := s.board.set dest ((s.board.getD dest []) ++ [⟨player⟩])
        unplaced := setMap s.unplaced player (s.unplaced player - 1)
        currentIndex := nextPlayerIndex s
        message := some ("Placed on space " ++ toString (dest + 1)) }

/-- `applyBubble` from `engine.ts`: splice the token out and push it on top
(valid `tokenIndex` is guaranteed by the enumerator). -/
def applyBubble (s : GameState) (space tokenIndex : Nat) : GameState :=
  let stack := s.board.getD space []
  let newStack := stack.eraseIdx tokenIndex ++ (stack.get? tokenIndex).toList
  { s with
    board := s.board.set space newStack
    currentIndex := nextPlayerIndex s
    message := some "Bubbled up" }

/-- `applyAction` from `engine.ts`. -/
def applyAction (s : GameState) (a : LegalAction) : GameState :=
  if s.winner ≠ none then s
  else
    match a with
    | .move m => applyMove s m
    | .place => applyPlace s
    | .bubble space tokenIndex => applyBubble s space tokenIndex

/-- `opponentPressure` from `bots.ts`, with the float arithmetic carried out
exactly in `ℚ` (all values are small multiples of one half). -/
def opponentPressure (s : GameState) (player : PlayerID) : ℚ :=
  let pinnedOpponents : Nat :=
    (s.board.map (fun stack =>
      (stack.enum.filter (fun q => q.2.player ≠ player ∧ isPinned stack q.1)).length)).sum
  let oppExitMax : Nat :=
    ((s.players.filter (fun p => p.id ≠ player)).map (fun p => s.exited p.id)).foldl max 0
  (pinnedOpponents : ℚ) * 1.5 - (oppExitMax : ℚ) * 4

/-- `evaluateState` from `bots.ts`, in exact arithmetic. -/
def evaluateState (s : GameState) (player : PlayerID) : ℚ :=
  let exitedScore : ℚ := (s.exited player : ℚ) * 6
  let mobility : ℚ := ((getLegalActions s).length : ℚ)
  let boardPresence : Nat :=
    (s.board.map (fun stack => (stack.filter (fun t => t.player = player)).length)).sum
  exitedScore + mobility + (boardPresence : ℚ) * 0.5 + opponentPressure s player

/-- Number of `pid`'s tokens anywhere on the board (the spec's
"tokens of player P on board"). -/
def tokensOf (pid : PlayerID) (b : Board) : Nat :=
  ((b.flatten).filter (fun t => t.player = pid)).length

/-- Occurrences of the token value `t` on the board, stack by stack. -/
def boardCnt (t : Token) (b : Board) : Nat :=
  (b.map (fun stack => stack.count t)).sum

/-- States reachable from `createInitialState` by legal actions only:
the hypothesis space of the spec's invariants.  The initial player list is
non-empty (the controllers always supply at least one player). -/
inductive Reachable : GameState → Prop where
  | init (players : List PlayerInfo) (hne : players ≠ []) :
      Reachable (createInitialState players)
  | step {s : GameState} (a : LegalAction) (hs : Reachable s)
      (ha : a ∈ getLegalActions s) : Reachable (applyAction s a)

/-- Total number of tokens on the board. -/
def totalTokens (b : Board) : Nat :=
  b.flatten.length

/-- Spec-side measure (for comparison with the code's `opponentPressure`):
"number of opponent tokens currently pinned", reading "pinned" as "has a
token above it", i.e. every token of a stack except the topmost one. -/
def pinnedOpponentTokens (player : PlayerID) (b : Board) : Nat :=
  (b.map (fun stack => (stack.dropLast.filter (fun t => t.player ≠ player)).length)).sum

/-- Spec-side measure: "maximum exited count among P's opponents"
(0 when there are no opponents, as in the code's `Math.max(..., 0)`). -/
def maxOpponentExited (s : GameState) (player : PlayerID) : Nat :=
  ((s.players.filter (fun p => p.id ≠ player)).map (fun p => s.exited p.id)).foldl max 0

/-! ### Concrete fixtures used by the scenario claims and witnesses -/

def redInfo : PlayerInfo := ⟨"RED", "Red", "#f87171", PlayerKind.human, none⟩

def blueInfo : PlayerInfo := ⟨"BLUE", "Blue", "#60a5fa", PlayerKind.human, none⟩

def twoPlayers : List PlayerInfo := [redInfo, blueInfo]

def tokenR : Token := ⟨"RED"⟩

def tokenB : Token := ⟨"BLUE"⟩

/-- Scenario A of the spec: a RED-owned stack of two on space index 7,
RED already has 4 exited tokens. -/
def scenarioA : GameState :=
  { createInitialState twoPlayers with
    board := [[], [], [], [], [], [], [], [tokenR, tokenR]]
    exited := fun p => if p = "RED" then 4 else 0 }

/-- A state whose backward move from space index 1 can place only one of
two carried tokens before running off the board. -/
def c5State : GameState :=
  { createInitialState twoPlayers with
    board := [[tokenB, tokenB, tokenB, tokenB], [tokenR, tokenR], [], [], [], [], [], []] }

/-- A board whose backward move from space index 1 places two of three
carried tokens and returns one to the source. -/
def c10Board : Board :=
  [[tokenB, tokenB, tokenB], [tokenR, tokenR, tokenR], [], [], [], [], [], []]

/-- Spaces 2..7 occupied, spaces 1 and 8 empty. -/
def c6State : GameState :=
  { createInitialState twoPlayers with
    board := [[], [tokenB], [tokenB], [tokenB], [tokenB], [tokenB], [tokenB], []] }

/-- A RED token pinned under a BLUE token on space index 0. -/
def c8State : GameState :=
  { createInitialState twoPlayers with
    board := [[tokenR, tokenB], [], [], [], [], [], [], []] }

/-! ### Basic list and counting lemmas -/

theorem token_eq_mk (t : Token) : t = ⟨t.player⟩ := rfl

theorem boardCnt_eq_flatten_count (t : Token) (b : Board) :
    boardCnt t b = b.flatten.count t := by
  induction b with
  | nil => rfl
  | cons s rest ih => simp [boardCnt, List.flatten_cons, List.count_append] at ih ⊢; omega

theorem tokensOf_eq_boardCnt (pid : PlayerID) (b : Board) :
    tokensOf pid b = boardCnt (⟨pid⟩ : Token) b := by
  rw [boardCnt_eq_flatten_count, tokensOf, ← List.countP_eq_length_filter, List.count]
  apply List.countP_congr
  intro t _
  constructor
  · intro h
    have : t.player = pid := by simpa using h
    simp [show t = (⟨pid⟩ : Token) from by cases t; simpa using this]
  · intro h
    have : t = (⟨pid⟩ : Token) := by simpa using h
    simp [this]

theorem getD_set_self {b : Board} {i : Nat} (h : i < b.length) (s : List Token) :
    (b.set i s).getD i [] = s := by
  simp [List.getD_eq_getElem?_getD, List.getElem?_set_self', h]

theorem getD_set_ne {b : Board} {i j : Nat} (h : i ≠ j) (s : List Token) :
    (b.set i s).getD j [] = b.getD j [] := by
  simp [List.getD_eq_getElem?_getD, List.getElem?_set_ne h]

theorem lt_length_of_getD_ne_nil {b : Board} {i : Nat} (h : b.getD i [] ≠ []) :
    i < b.length := by
  by_contra hn
  push_neg at hn
  simp [List.getD_eq_getElem?_getD, List.getElem?_eq_none hn] at h

theorem boardCnt_set {b : Board} {i : Nat} (h : i < b.length) (s : List Token) (t : Token) :
    boardCnt t (b.set i s) + (b.getD i []).count t = boardCnt t b + s.count t := by
  induction b generalizing i with
  | nil => simp at h
  | cons hd tl ih =>
    cases i with
    | zero => simp [boardCnt]; omega
    | succ j =>
      have hj : j < tl.length := by simpa using h
      have := ih hj
      simp [boardCnt, List.set] at this ⊢
      omega

/-! ### Slide-loop lemmas -/

theorem slideStep_board_length (st : SlideState) (pos : Nat) :
    (slideStep st pos).board.length = st.board.length := by
  unfold slideStep
  by_cases hcap : 0 < 5 - (st.board.getD pos []).length
  · simp only [if_pos hcap, List.length_set]
  · simp only [if_neg hcap]

theorem slideStep_count {st : SlideState} {pos : Nat} (h : pos < st.board.length) (t : Token) :
    boardCnt t (slideStep st pos).board + ((slideStep st pos).moved).count t
      = boardCnt t st.board + st.moved.count t := by
  unfold slideStep
  by_cases hcap : 0 < 5 - (st.board.getD pos []).length
  · simp only [if_pos hcap]
    set k := min (5 - (st.board.getD pos []).length) st.moved.length with hk
    have hset := boardCnt_set h ((st.board.getD pos []) ++ st.moved.take k) t
    have hsplit : (st.moved.take k).count t + (st.moved.drop k).count t = st.moved.count t := by
      rw [← List.count_append, List.take_append_drop]
    simp only [List.count_append] at hset
    omega
  · simp only [if_neg hcap]

theorem slideStep_bound {st : SlideState} {pos : Nat}
    (h : ∀ i, (st.board.getD i []).length ≤ 5) :
    ∀ i, ((slideStep st pos).board.getD i []).length ≤ 5 := by
  intro i
  unfold slideStep
  by_cases hcap : 0 < 5 - (st.board.getD pos []).length
  · simp only [if_pos hcap]
    by_cases hip : i = pos
    · subst hip
      by_cases hlt : i < st.board.length
      · rw [getD_set_self hlt]
        have := h i
        simp only [List.length_append, List.length_take]
        omega
      · rw [List.set_eq_of_length_le (by omega)]
        exact h i
    · rw [getD_set_ne (fun hc => hip hc.symm)]
      exact h i
  · simp only [if_neg hcap]
    exact h i

theorem slideStep_frame {st : SlideState} {pos j : Nat} (h : j ≠ pos) :
    (slideStep st pos).board.getD j [] = st.board.getD j [] := by
  unfold slideStep
  by_cases hcap : 0 < 5 - (st.board.getD pos []).length
  · simp only [if_pos hcap]
    exact getD_set_ne (fun hc => h hc.symm) _
  · simp only [if_neg hcap]

theorem slideStep_moved_drop (st : SlideState) (pos : Nat) :
    ∃ k, (slideStep st pos).moved = st.moved.drop k := by
  unfold slideStep
  by_cases hcap : 0 < 5 - (st.board.getD pos []).length
  · simp only [if_pos hcap]
    exact ⟨_, rfl⟩
  · simp only [if_neg hcap]
    exact ⟨0, rfl⟩

theorem slideForward_board_length (fuel pos : Nat) (st : SlideState) :
    (slideForward fuel pos st).board.length = st.board.length := by
  induction fuel generalizing pos st with
  | zero => rfl
  | succ n ih =>
    unfold slideForward
    split
    · rfl
    · rw [ih, slideStep_board_length]

theorem slideForward_count {fuel pos : Nat} {st : SlideState}
    (h : pos + fuel ≤ st.board.length) (t : Token) :
    boardCnt t (slideForward fuel pos st).board + ((slideForward fuel pos st).moved).count t
      = boardCnt t st.board + st.moved.count t := by
  induction fuel generalizing pos st with
  | zero => rfl
  | succ n ih =>
    unfold slideForward
    split
    · rfl
    · have hlen : (slideStep st pos).board.length = st.board.length :=
        slideStep_board_length st pos
      have hrec := @ih (pos + 1) (slideStep st pos) (by omega)
      have hstep := @slideStep_count st pos (by omega) t
      omega

theorem slideForward_bound {fuel pos : Nat} {st : SlideState}
    (h : ∀ i, (st.board.getD i []).length ≤ 5) :
    ∀ i, ((slideForward fuel pos st).board.getD i []).length ≤ 5 := by
  induction fuel generalizing pos st with
  | zero => exact h
  | succ n ih =>
    unfold slideForward
    split
    · exact h
    · exact ih (slideStep_bound h)

theorem slideForward_moved_suffix (fuel pos : Nat) (st : SlideState) :
    (slideForward fuel pos st).moved <:+ st.moved := by
  induction fuel generalizing pos st with
  | zero => exact List.suffix_refl _
  | succ n ih =>
    unfold slideForward
    split
    · exact List.suffix_refl _
    · obtain ⟨k, hk⟩ := slideStep_moved_drop st pos
      exact ((ih (pos + 1) (slideStep st pos)).trans (hk ▸ List.drop_suffix k st.moved))

theorem slideBackward_board_length (pos : Nat) (st : SlideState) :
    (slideBackward pos st).board.length = st.board.length := by
  induction pos generalizing st with
  | zero =>
    unfold slideBackward
    split
    · rfl
    · exact slideStep_board_length st 0
  | succ p ih =>
    unfold slideBackward
    split
    · rfl
    · rw [ih, slideStep_board_length]

theorem slideBackward_count {pos : Nat} {st : SlideState}
    (h : pos < st.board.length) (t : Token) :
    boardCnt t (slideBackward pos st).board + ((slideBackward pos st).moved).count t
      = boardCnt t st.board + st.moved.count t := by
  induction pos generalizing st with
  | zero =>
    unfold slideBackward
    split
    · rfl
    · exact slideStep_count h t
  | succ p ih =>
    unfold slideBackward
    split
    · rfl
    · have hlen : (slideStep st (p + 1)).board.length = st.board.length :=
        slideStep_board_length st (p + 1)
      have hrec := @ih (slideStep st (p + 1)) (by omega)
      have hstep := @slideStep_count st (p + 1) h t
      omega

theorem slideBackward_bound {pos : Nat} {st : SlideState}
    (h : ∀ i, (st.board.getD i []).length ≤ 5) :
    ∀ i, ((slideBackward pos st).board.getD i []).length ≤ 5 := by
  induction pos generalizing st with
  | zero =>
    unfold slideBackward
    split
    · exact h
    · exact slideStep_bound h
  | succ p ih =>
    unfold slideBackward
    split
    · exact h
    · exact ih (slideStep_bound h)

theorem slideBackward_moved_suffix (pos : Nat) (st : SlideState) :
    (slideBackward pos st).moved <:+ st.moved := by
  induction pos generalizing st with
  | zero =>
    unfold slideBackward
    split
    · exact List.suffix_refl _
    · obtain ⟨k, hk⟩ := slideStep_moved_drop st 0
      exact hk ▸ List.drop_suffix k st.moved
  | succ p ih =>
    unfold slideBackward
    split
    · exact List.suffix_refl _
    · obtain ⟨k, hk⟩ := slideStep_moved_drop st (p + 1)
      exact ((ih (slideStep st (p + 1))).trans (hk ▸ List.drop_suffix k st.moved))

theorem slideBackward_frame {pos j : Nat} {st : SlideState} (h : pos < j) :
    (slideBackward pos st).board.getD j [] = st.board.getD j [] := by
  induction pos generalizing st with
  | zero =>
    unfold slideBackward
    split
    · rfl
    · exact slideStep_frame (by omega)
  | succ p ih =>
    unfold slideBackward
    split
    · rfl
    · rw [ih (by omega), slideStep_frame (by omega)]

/-! ### Move-resolution lemmas -/

theorem slideBackward_of_moved_nil {pos : Nat} {st : SlideState} (h : st.moved = []) :
    slideBackward pos st = st := by
  cases pos <;> simp [slideBackward, h]

theorem resolveMove_forward {b : Board} {a : MoveAction} {r : MoveRes}
    (hd : a.dir = .forward) (hc : 1 ≤ a.count) (hr : resolveMove b a = some r) :
    r.board.length = b.length ∧
    (∃ leftover : List Token,
      r.exited = leftover.length ∧
      leftover <:+ (b.getD a.fromIdx []).drop ((b.getD a.fromIdx []).length - a.count) ∧
      ∀ t, boardCnt t r.board + leftover.count t = boardCnt t b) ∧
    ((∀ i, (b.getD i []).length ≤ 5) → ∀ i, (r.board.getD i []).length ≤ 5) := by
  unfold resolveMove at hr
  rw [hd] at hr
  simp only at hr
  by_cases hlen : (b.getD a.fromIdx []).length < a.count
  · rw [if_pos hlen] at hr
    exact absurd hr (by simp)
  rw [if_neg hlen] at hr
  push_neg at hlen
  have hne : b.getD a.fromIdx [] ≠ [] := by
    intro hnil
    rw [hnil] at hlen
    simp at hlen
    omega
  have hflt : a.fromIdx < b.length := lt_length_of_getD_ne_nil hne
  have hsplit0 : ∀ t,
      boardCnt t (b.set a.fromIdx
        ((b.getD a.fromIdx []).take ((b.getD a.fromIdx []).length - a.count)))
      + ((b.getD a.fromIdx []).drop ((b.getD a.fromIdx []).length - a.count)).count t
      = boardCnt t b := by
    intro t
    have hw := boardCnt_set hflt
      ((b.getD a.fromIdx []).take ((b.getD a.fromIdx []).length - a.count)) t
    have hsp : ((b.getD a.fromIdx []).take ((b.getD a.fromIdx []).length - a.count)).count t
        + ((b.getD a.fromIdx []).drop ((b.getD a.fromIdx []).length - a.count)).count t
        = (b.getD a.fromIdx []).count t := by
      rw [← List.count_append, List.take_append_drop]
    omega
  set stack := b.getD a.fromIdx [] with hstack
  set moved := stack.drop (stack.length - a.count) with hmoved
  set working := b.set a.fromIdx (stack.take (stack.length - a.count)) with hworking
  have hwlen : working.length = b.length := by simp [hworking]
  set st := slideForward (working.length - (a.fromIdx + 1)) (a.fromIdx + 1)
    ⟨working, moved, none, 0⟩ with hst
  have hstlen : st.board.length = working.length := by
    rw [hst]; exact slideForward_board_length _ _ _
  have hcons : ∀ t, boardCnt t st.board + st.moved.count t
      = boardCnt t working + moved.count t := by
    intro t
    rw [hst]
    exact slideForward_count
      (show (a.fromIdx + 1) + (working.length - (a.fromIdx + 1)) ≤ working.length by omega) t
  have hsuffix : st.moved <:+ moved := by
    rw [hst]; exact slideForward_moved_suffix _ _ _
  have hbound : (∀ i, (b.getD i []).length ≤ 5) → ∀ i, (st.board.getD i []).length ≤ 5 := by
    intro hb
    rw [hst]
    apply slideForward_bound
    intro i
    by_cases hip : i = a.fromIdx
    · subst hip
      rw [hworking, getD_set_self hflt]
      have h5 := hb a.fromIdx
      rw [← hstack] at h5
      simp only [List.length_take]
      omega
    · rw [hworking, getD_set_ne (fun hc2 => hip hc2.symm)]
      exact hb i
  by_cases hmv : st.moved = []
  · rw [if_pos hmv] at hr
    obtain rfl := Option.some.inj hr
    refine ⟨by show st.board.length = b.length; omega, ⟨[], by simp, List.nil_suffix, ?_⟩,
      hbound⟩
    intro t
    show boardCnt t st.board + List.count t [] = boardCnt t b
    have h1 := hcons t
    rw [hmv] at h1
    simp only [List.count_nil] at h1 ⊢
    have h2 := hsplit0 t
    omega
  · rw [if_neg hmv] at hr
    obtain rfl := Option.some.inj hr
    refine ⟨by show st.board.length = b.length; omega, ⟨st.moved, rfl, hsuffix, ?_⟩, hbound⟩
    intro t
    show boardCnt t st.board + st.moved.count t = boardCnt t b
    have h1 := hcons t
    have h2 := hsplit0 t
    omega

theorem resolveMove_backward {b : Board} {a : MoveAction} {r : MoveRes}
    (hd : a.dir = .backward) (hr : resolveMove b a = some r) :
    r.board.length = b.length ∧ r.exited = 0 ∧
    (∀ t, boardCnt t r.board = boardCnt t b) ∧
    (r.board.getD a.fromIdx []).length ≤ (b.getD a.fromIdx []).length ∧
    (∃ leftover : List Token,
      leftover <:+ (b.getD a.fromIdx []).drop ((b.getD a.fromIdx []).length - a.count) ∧
      r.board.getD a.fromIdx [] =
        (b.getD a.fromIdx []).take ((b.getD a.fromIdx []).length - a.count) ++ leftover) ∧
    ((∀ i, (b.getD i []).length ≤ 5) → ∀ i, (r.board.getD i []).length ≤ 5) := by
  unfold resolveMove at hr
  rw [hd] at hr
  simp only at hr
  by_cases hf0 : a.fromIdx = 0
  · rw [if_pos hf0] at hr
    exact absurd hr (by simp)
  rw [if_neg hf0] at hr
  by_cases hlen : (b.getD a.fromIdx []).length < a.count
  · rw [if_pos hlen] at hr
    exact absurd hr (by simp)
  rw [if_neg hlen] at hr
  push_neg at hlen
  by_cases hmv0 : (b.getD a.fromIdx []).drop ((b.getD a.fromIdx []).length - a.count) = []
  · rw [slideBackward_of_moved_nil hmv0] at hr
    simp at hr
  have hcne : a.count ≠ 0 := by
    intro h0
    apply hmv0
    rw [h0]
    simp [List.drop_length]
  have hne : b.getD a.fromIdx [] ≠ [] := by
    intro hnil
    rw [hnil] at hmv0
    simp at hmv0
  have hflt : a.fromIdx < b.length := lt_length_of_getD_ne_nil hne
  have hsplit0 : ∀ t,
      boardCnt t (b.set a.fromIdx
        ((b.getD a.fromIdx []).take ((b.getD a.fromIdx []).length - a.count)))
      + ((b.getD a.fromIdx []).drop ((b.getD a.fromIdx []).length - a.count)).count t
      = boardCnt t b := by
    intro t
    have hw := boardCnt_set hflt
      ((b.getD a.fromIdx []).take ((b.getD a.fromIdx []).length - a.count)) t
    have hsp : ((b.getD a.fromIdx []).take ((b.getD a.fromIdx []).length - a.count)).count t
        + ((b.getD a.fromIdx []).drop ((b.getD a.fromIdx []).length - a.count)).count t
        = (b.getD a.fromIdx []).count t := by
      rw [← List.count_append, List.take_append_drop]
    omega
  set stack := b.getD a.fromIdx [] with hstack
  set moved := stack.drop (stack.length - a.count) with hmoved
  set working := b.set a.fromIdx (stack.take (stack.length - a.count)) with hworking
  have hwlen : working.length = b.length := by simp [hworking]
  set st := slideBackward (a.fromIdx - 1) ⟨working, moved, none, 0⟩ with hst
  have hstlen : st.board.length = working.length := by
    rw [hst]; exact slideBackward_board_length _ _
  have hcons : ∀ t, boardCnt t st.board + st.moved.count t
      = boardCnt t working + moved.count t := by
    intro t
    rw [hst]
    exact slideBackward_count (show a.fromIdx - 1 < working.length by omega) t
  have hsuffix : st.moved <:+ moved := by
    rw [hst]; exact slideBackward_moved_suffix _ _
  have hmovlen : moved.length = a.count := by
    rw [hmoved]
    simp only [List.length_drop]
    omega
  have hlleft : st.moved.length ≤ a.count := by
    have := hsuffix.length_le
    omega
  have hsource : st.board.getD a.fromIdx [] = stack.take (stack.length - a.count) := by
    have hfr : st.board.getD a.fromIdx [] = working.getD a.fromIdx [] := by
      rw [hst]
      exact slideBackward_frame (show a.fromIdx - 1 < a.fromIdx by omega)
    rw [hfr, hworking]
    exact getD_set_self hflt _
  have htlen : (stack.take (stack.length - a.count)).length = stack.length - a.count := by
    simp only [List.length_take]
    omega
  have hbound : (∀ i, (b.getD i []).length ≤ 5) → ∀ i, (st.board.getD i []).length ≤ 5 := by
    intro hb
    rw [hst]
    apply slideBackward_bound
    intro i
    by_cases hip : i = a.fromIdx
    · subst hip
      rw [hworking, getD_set_self hflt]
      have h5 := hb a.fromIdx
      rw [← hstack] at h5
      simp only [List.length_take]
      omega
    · rw [hworking, getD_set_ne (fun hc2 => hip hc2.symm)]
      exact hb i
  by_cases hp0 : st.placed = 0
  · rw [if_pos hp0] at hr
    exact absurd hr (by simp)
  rw [if_neg hp0] at hr
  obtain rfl := Option.some.inj hr
  dsimp only
  by_cases hmv : st.moved = []
  · rw [if_pos hmv]
    refine ⟨by omega, rfl, ?_, ?_, ⟨st.moved, hsuffix, ?_⟩, ?_⟩
    · intro t
      have h1 := hcons t
      rw [hmv] at h1
      simp only [List.count_nil] at h1
      have h2 := hsplit0 t
      omega
    · rw [hsource]
      simp only [List.length_take]
      omega
    · rw [hsource, hmv, List.append_nil]
    · intro hb
      exact hbound hb
  · rw [if_neg hmv]
    have hfst : a.fromIdx < st.board.length := by omega
    refine ⟨by simp only [List.length_set]; omega, rfl, ?_, ?_, ⟨st.moved, hsuffix, ?_⟩, ?_⟩
    · intro t
      have hs := boardCnt_set hfst (st.board.getD a.fromIdx [] ++ st.moved) t
      simp only [List.count_append] at hs
      have h1 := hcons t
      have h2 := hsplit0 t
      omega
    · rw [getD_set_self hfst, hsource]
      simp only [List.length_append, List.length_take]
      omega
    · rw [getD_set_self hfst, hsource]
    · intro hb
      intro i
      by_cases hip : i = a.fromIdx
      · subst hip
        rw [getD_set_self hfst, hsource]
        have h5 := hb a.fromIdx
        rw [← hstack] at h5
        simp only [List.length_append, List.length_take]
        omega
      · rw [getD_set_ne (fun hc2 => hip hc2.symm)]
        exact hbound hb i

/-! ### Membership characterizations for the enumerators -/

theorem mem_enum_pair {α : Type} {l : List α} {p : Nat × α} :
    p ∈ l.enum ↔ l.get? p.1 = some p.2 := by
  obtain ⟨i, x⟩ := p
  rw [List.enum, List.mk_mem_enumFrom_iff_le_and_getElem?_sub]
  simp [List.get?_eq_getElem?]

theorem countsUpTo_mem {k n : Nat} : k ∈ countsUpTo n ↔ 1 ≤ k ∧ k ≤ n := by
  unfold countsUpTo
  simp only [List.mem_map, List.mem_range]
  constructor
  · rintro ⟨a, ha, rfl⟩
    omega
  · intro ⟨h1, h2⟩
    exact ⟨k - 1, by omega, by omega⟩

theorem topContiguous_drop {stack : List Token} {player : PlayerID} {k : Nat}
    (hk : k ≤ topContiguousCount stack player) :
    ∀ t ∈ stack.drop (stack.length - k), t.player = player := by
  intro t ht
  have hmem : t ∈ stack.reverse.take k := by
    have : stack.drop (stack.length - k) = (stack.reverse.take k).reverse := by
      rw [show stack.drop (stack.length - k) = stack.rtake k from rfl,
        List.rtake_eq_reverse_take_reverse]
    rw [this, List.mem_reverse] at ht
    exact ht
  unfold topContiguousCount at hk
  have hpre : stack.reverse.takeWhile (fun t => t.player = player) <+: stack.reverse :=
    List.takeWhile_prefix _
  obtain ⟨rest, hrest⟩ := hpre
  have htake : stack.reverse.take k
      = (stack.reverse.takeWhile (fun t => t.player = player)).take k := by
    conv_lhs => rw [← hrest]
    rw [List.take_append_eq_append_take,
      show k - (stack.reverse.takeWhile (fun t => t.player = player)).length = 0 by omega,
      List.take_zero, List.append_nil]
  rw [htake] at hmem
  have := List.mem_takeWhile_imp (List.mem_of_mem_take hmem)
  simpa using this

theorem getMoveOptions_mem {s : GameState} {m : MoveAction} :
    m ∈ getMoveOptions s ↔
      m.fromIdx < s.board.length ∧ 1 ≤ m.count ∧
      m.count ≤ topContiguousCount (s.board.getD m.fromIdx []) (currentPlayer s) ∧
      (resolveMove s.board m).isSome = true := by
  unfold getMoveOptions
  simp only [List.mem_flatMap, List.mem_filterMap]
  constructor
  · rintro ⟨p, hp, dir, hdir, count, hcount, hif⟩
    by_cases hres : (resolveMove s.board ⟨p.1, dir, count⟩).isSome
    · rw [if_pos hres] at hif
      obtain rfl := Option.some.inj hif
      rw [mem_enum_pair] at hp
      have hlt : p.1 < s.board.length := by
        by_contra hge
        rw [List.get?_eq_getElem?, List.getElem?_eq_none (by omega)] at hp
        exact absurd hp (by simp)
      have hgd : s.board.getD p.1 [] = p.2 := by
        simp [List.getD_eq_getElem?_getD, ← List.get?_eq_getElem?, hp]
      rw [countsUpTo_mem] at hcount
      exact ⟨hlt, hcount.1, by rw [hgd]; exact hcount.2, hres⟩
    · rw [if_neg hres] at hif
      exact absurd hif (by simp)
  · rintro ⟨hlt, hc1, hc2, hres⟩
    refine ⟨(m.fromIdx, s.board.getD m.fromIdx []), ?_, m.dir, ?_, m.count, ?_, ?_⟩
    · rw [mem_enum_pair]
      simp [List.get?_eq_getElem?, List.getElem?_eq_getElem hlt, List.getD_eq_getElem?_getD,
        List.getElem?_eq_getElem hlt]
    · cases m.dir <;> simp
    · rw [countsUpTo_mem]
      exact ⟨hc1, hc2⟩
    · have hm : (⟨m.fromIdx, m.dir, m.count⟩ : MoveAction) = m := rfl
      rw [hm, if_pos hres]

theorem getBubbleOptions_mem {s : GameState} {sp ti : Nat} :
    (sp, ti) ∈ getBubbleOptions s ↔
      ∃ tok, (s.board.getD sp []).get? ti = some tok ∧
        tok.player = currentPlayer s ∧ isPinned (s.board.getD sp []) ti = true := by
  unfold getBubbleOptions
  simp only [List.mem_flatMap, List.mem_filterMap]
  constructor
  · rintro ⟨p, hp, q, hq, hif⟩
    by_cases hcond : q.2.player = currentPlayer s ∧ isPinned p.2 q.1 = true
    · rw [if_pos hcond] at hif
      obtain ⟨h1, h2⟩ := Prod.mk.inj (Option.some.inj hif)
      subst h1; subst h2
      rw [mem_enum_pair] at hp hq
      have hgd : s.board.getD p.1 [] = p.2 := by
        simp [List.getD_eq_getElem?_getD, ← List.get?_eq_getElem?, hp]
      exact ⟨q.2, by rw [hgd]; exact hq, hcond.1, by rw [hgd]; exact hcond.2⟩
    · rw [if_neg hcond] at hif
      exact absurd hif (by simp)
  · rintro ⟨tok, htok, hown, hpin⟩
    have hti : ti < (s.board.getD sp []).length := by
      by_contra hge
      rw [List.get?_eq_getElem?, List.getElem?_eq_none (by omega)] at htok
      exact absurd htok (by simp)
    have hne : s.board.getD sp [] ≠ [] := by
      intro hnil
      rw [hnil] at hti
      simp at hti
    have hsp : sp < s.board.length := lt_length_of_getD_ne_nil hne
    refine ⟨(sp, s.board.getD sp []), ?_, (ti, tok), ?_, ?_⟩
    · rw [mem_enum_pair]
      simp [List.get?_eq_getElem?, List.getElem?_eq_getElem hsp, List.getD_eq_getElem?_getD,
        List.getElem?_eq_getElem hsp]
    · rw [mem_enum_pair]
      exact htok
    · rw [if_pos ⟨hown, hpin⟩]

theorem getLegalActions_eq {s : GameState} (h : s.winner = none) :
    getLegalActions s =
      if getMoveOptions s ≠ [] then
        (getMoveOptions s).map LegalAction.move
          ++ (if canPlace s then [LegalAction.place] else [])
      else if canPlace s then [LegalAction.place]
      else (getBubbleOptions s).map (fun b => LegalAction.bubble b.1 b.2) := by
  unfold getLegalActions canPlace
  rw [if_neg (by simp [h])]


theorem legal_move_mem {s : GameState} {m : MoveAction}
    (h : LegalAction.move m ∈ getLegalActions s) : m ∈ getMoveOptions s := by
  unfold getLegalActions at h
  by_cases hw : s.winner ≠ none
  · rw [if_pos hw] at h
    exact absurd h (by simp)
  rw [if_neg hw] at h
  by_cases hmo : getMoveOptions s ≠ []
  · rw [if_pos hmo] at h
    rcases List.mem_append.1 h with h1 | h2
    · obtain ⟨m', hm', he⟩ := List.mem_map.1 h1
      injection he with hmm
      subst hmm
      exact hm'
    · split at h2 <;> simp at h2
  · rw [if_neg hmo] at h
    split at h
    · simp at h
    · obtain ⟨b, _, he⟩ := List.mem_map.1 h
      cases he

theorem legal_bubble_mem {s : GameState} {sp ti : Nat}
    (h : LegalAction.bubble sp ti ∈ getLegalActions s) : (sp, ti) ∈ getBubbleOptions s := by
  unfold getLegalActions at h
  by_cases hw : s.winner ≠ none
  · rw [if_pos hw] at h
    exact absurd h (by simp)
  rw [if_neg hw] at h
  by_cases hmo : getMoveOptions s ≠ []
  · rw [if_pos hmo] at h
    rcases List.mem_append.1 h with h1 | h2
    · obtain ⟨m', _, he⟩ := List.mem_map.1 h1
      cases he
    · split at h2 <;> simp at h2
  · rw [if_neg hmo] at h
    split at h
    · simp at h
    · obtain ⟨b, hb, he⟩ := List.mem_map.1 h
      injection he with h1 h2
      rw [← h1, ← h2]
      exact hb

theorem eraseIdx_append_getElem_perm {l : List Token} {i : Nat} {x : Token}
    (h : l.get? i = some x) : List.Perm (l.eraseIdx i ++ [x]) l := by
  have hi : i < l.length := by
    by_contra hge
    rw [List.get?_eq_getElem?, List.getElem?_eq_none (by omega)] at h
    exact absurd h (by simp)
  have hx : l[i] = x := by
    rw [List.get?_eq_getElem?, List.getElem?_eq_getElem hi] at h
    exact Option.some.inj h
  rw [List.eraseIdx_eq_take_drop_succ, List.append_assoc]
  have hperm : List.Perm (l.take i ++ (l.drop (i + 1) ++ [x]))
      (l.take i ++ (x :: l.drop (i + 1))) :=
    List.Perm.append_left _ (List.perm_append_singleton _ _)
  have heq : l.take i ++ (x :: l.drop (i + 1)) = l := by
    conv_rhs => rw [← List.take_append_drop i l]
    rw [List.drop_eq_getElem_cons hi, hx]
  have hrefl : List.Perm (l.take i ++ (x :: l.drop (i + 1))) l := by
    rw [heq]
  exact hperm.trans hrefl

theorem lowestEmptyIndexAux_some {b : Board} {i e : Nat} :
    lowestEmptyIndexAux b i = some e ↔
      ∃ j, j < b.length ∧ e = i + j ∧ (b.getD j []).length = 0 ∧
        ∀ k < j, (b.getD k []).length ≠ 0 := by
  induction b generalizing i e with
  | nil => simp [lowestEmptyIndexAux]
  | cons hd tl ih =>
    unfold lowestEmptyIndexAux
    by_cases hhd : hd.length = 0
    · rw [if_pos hhd]
      constructor
      · intro he
        obtain rfl := Option.some.inj he
        exact ⟨0, by simp, by omega, by simpa using hhd, by omega⟩
      · rintro ⟨j, hj, he, hz, hmin⟩
        cases j with
        | zero => simp [he]
        | succ j' =>
          exact absurd (by simpa using hhd) (hmin 0 (by omega))
    · rw [if_neg hhd]
      rw [ih]
      constructor
      · rintro ⟨j, hj, he, hz, hmin⟩
        refine ⟨j + 1, by simpa using hj, by omega, by simpa using hz, ?_⟩
        intro k hk
        cases k with
        | zero => simpa using hhd
        | succ k' => simpa using hmin k' (by omega)
      · rintro ⟨j, hj, he, hz, hmin⟩
        cases j with
        | zero => exact absurd (by simpa using hz) hhd
        | succ j' =>
          refine ⟨j', by simpa using hj, by omega, by simpa using hz, ?_⟩
          intro k hk
          simpa using hmin (k + 1) (by omega)

theorem placementDestination_lt {s : GameState} {d : Nat}
    (hb : s.board.length = 8) (h : placementDestination s = some d) : d < s.board.length := by
  unfold placementDestination at h
  split at h
  · exact absurd h (by simp)
  · rename_i e hle
    unfold lowestEmptyIndex at hle
    obtain ⟨j, hj, hej, _, _⟩ := lowestEmptyIndexAux_some.1 hle
    split at h
    · obtain rfl := Option.some.inj h
      omega
    · split at h
      · obtain rfl := Option.some.inj h
        omega
      · obtain rfl := Option.some.inj h
        omega

/-! ### The inductive invariant of reachable states -/

theorem setMap_apply (m : PlayerID → Nat) (k : PlayerID) (v : Nat) (q : PlayerID) :
    setMap m k v q = if q = k then v else m q := rfl

theorem nextPlayerIndex_lt {s : GameState} (h : s.players ≠ []) :
    nextPlayerIndex s < s.players.length :=
  Nat.mod_lt _ (List.length_pos.2 h)

theorem currentPlayer_mem {s : GameState} (h : s.currentIndex < s.players.length) :
    currentPlayer s ∈ s.players.map PlayerInfo.id := by
  unfold currentPlayer
  rw [List.get?_eq_getElem?, List.getElem?_eq_getElem h]
  simp only [Option.map_some', Option.getD_some]
  exact List.mem_map_of_mem _ (s.players.getElem_mem h)

/-- The inductive invariant carried along `Reachable`: well-formed turn
pointer, 8 board spaces, the 5-stack bound, per-player token conservation,
and the winner flag's characterization. -/
structure Inv (s : GameState) : Prop where
  playersNe : s.players ≠ []
  idxLt : s.currentIndex < s.players.length
  boardLen : s.board.length = 8
  stackBound : ∀ i, (s.board.getD i []).length ≤ 5
  conserve : ∀ p ∈ s.players,
    tokensOf p.id s.board + s.unplaced p.id + s.exited p.id = INITIAL_TOKENS
  winnerNone : s.winner = none → ∀ p ∈ s.players, s.exited p.id < 5
  winnerSome : ∀ w, s.winner = some w → w ∈ s.players.map PlayerInfo.id ∧ 5 ≤ s.exited w

theorem inv_init (players : List PlayerInfo) (hne : players ≠ []) :
    Inv (createInitialState players) := by
  constructor
  · exact hne
  · exact List.length_pos.2 hne
  · simp [createInitialState]
  · intro i
    show ((List.replicate 8 ([] : List Token)).getD i []).length ≤ 5
    rw [List.getD_eq_getElem?_getD, List.getElem?_replicate]
    split <;> simp
  · intro p hp
    show tokensOf p.id (List.replicate 8 []) +
      (if players.any (fun q => q.id = p.id) then INITIAL_TOKENS else 0) + 0 = INITIAL_TOKENS
    have hz : tokensOf p.id (List.replicate 8 []) = 0 := by
      unfold tokensOf
      rw [List.flatten_replicate_nil]
      rfl
    have hany : players.any (fun q => q.id = p.id) = true :=
      List.any_eq_true.2 ⟨p, hp, by simp⟩
    rw [hz, hany]
    simp
  · intro _ p _
    show (0 : Nat) < 5
    omega
  · intro w hww
    exact absurd hww (by simp [createInitialState])

theorem inv_applyPlace {s : GameState} (hinv : Inv s) (hw : s.winner = none) :
    Inv (applyPlace s) := by
  unfold applyPlace
  split
  · exact hinv
  · rename_i dest hdest
    dsimp only
    split
    · exact hinv
    · rename_i hguard
      push_neg at hguard
      obtain ⟨hu, hlen5⟩ := hguard
      have hflt : dest < s.board.length := placementDestination_lt hinv.boardLen hdest
      constructor
      · exact hinv.playersNe
      · exact nextPlayerIndex_lt hinv.playersNe
      · simpa using hinv.boardLen
      · intro i
        by_cases hid : i = dest
        · subst hid
          rw [getD_set_self hflt]
          simp only [List.length_append, List.length_singleton]
          omega
        · rw [getD_set_ne (fun hc => hid hc.symm)]
          exact hinv.stackBound i
      · intro p hp
        dsimp only at hp ⊢
        have hcon := hinv.conserve p hp
        rw [tokensOf_eq_boardCnt] at hcon ⊢
        have hset := boardCnt_set hflt
          ((s.board.getD dest []) ++ [⟨currentPlayer s⟩]) (⟨p.id⟩ : Token)
        simp only [List.count_append] at hset
        rw [setMap_apply]
        by_cases hpp : p.id = currentPlayer s
        · rw [if_pos hpp]
          rw [hpp] at hcon hset ⊢
          have hone : List.count (⟨currentPlayer s⟩ : Token) [(⟨currentPlayer s⟩ : Token)] = 1 := by
            simp
          omega
        · rw [if_neg hpp]
          have hzero : List.count (⟨p.id⟩ : Token) [(⟨currentPlayer s⟩ : Token)] = 0 :=
            List.count_eq_zero.2 (by simp [Token.mk.injEq, hpp])
          omega
      · intro _ p hp
        exact hinv.winnerNone hw p hp
      · intro w hww
        exact absurd hww (by simp [hw])

theorem inv_applyBubble {s : GameState} {sp ti : Nat} (hinv : Inv s)
    (hb : (sp, ti) ∈ getBubbleOptions s) : Inv (applyBubble s sp ti) := by
  obtain ⟨tok, htok, hown, hpin⟩ := getBubbleOptions_mem.1 hb
  have hti : ti < (s.board.getD sp []).length := by
    by_contra hge
    rw [List.get?_eq_getElem?, List.getElem?_eq_none (by omega)] at htok
    exact absurd htok (by simp)
  have hne : s.board.getD sp [] ≠ [] := by
    intro hnil
    rw [hnil] at hti
    simp at hti
  have hsp : sp < s.board.length := lt_length_of_getD_ne_nil hne
  have hperm := eraseIdx_append_getElem_perm htok
  have htoklist : (s.board.getD sp []).get? ti = some tok := htok
  unfold applyBubble
  dsimp only
  rw [htoklist]
  constructor
  · exact hinv.playersNe
  · exact nextPlayerIndex_lt hinv.playersNe
  · simpa using hinv.boardLen
  · intro i
    dsimp only
    by_cases hid : i = sp
    · subst hid
      rw [getD_set_self hsp]
      have hlen := hperm.length_eq
      have := hinv.stackBound i
      simp only [Option.toList_some] at hlen ⊢
      omega
    · rw [getD_set_ne (fun hc => hid hc.symm)]
      exact hinv.stackBound i
  · intro p hp
    dsimp only at hp ⊢
    have hcon := hinv.conserve p hp
    rw [tokensOf_eq_boardCnt] at hcon ⊢
    have hset := boardCnt_set hsp
      ((s.board.getD sp []).eraseIdx ti ++ (some tok).toList) (⟨p.id⟩ : Token)
    have hcnt := hperm.count_eq (⟨p.id⟩ : Token)
    simp only [Option.toList_some] at hset hcnt ⊢
    omega
  · intro hwn p hp
    dsimp only at hwn hp ⊢
    exact hinv.winnerNone hwn p hp
  · intro w hww
    dsimp only at hww
    obtain ⟨h1, h2⟩ := hinv.winnerSome w hww
    exact ⟨h1, h2⟩

theorem inv_applyMove {s : GameState} {m : MoveAction} (hinv : Inv s) (hw : s.winner = none)
    (hm : m ∈ getMoveOptions s) : Inv (applyMove s m) := by
  obtain ⟨hflt, hc1, hc2, hres⟩ := getMoveOptions_mem.1 hm
  obtain ⟨r, hr⟩ := Option.isSome_iff_exists.1 hres
  have hcp : currentPlayer s ∈ s.players.map PlayerInfo.id := currentPlayer_mem hinv.idxLt
  unfold applyMove
  rw [hr]
  dsimp only
  cases hdir : m.dir with
  | forward =>
    obtain ⟨hblen, ⟨L, hLlen, hLsuf, hLcnt⟩, hbound⟩ := resolveMove_forward hdir hc1 hr
    have hhomog : ∀ t ∈ L, t.player = currentPlayer s := by
      intro t ht
      exact topContiguous_drop hc2 t (hLsuf.subset ht)
    have hLcntP : L.count (⟨currentPlayer s⟩ : Token) = L.length :=
      List.count_eq_length.2 (fun b hb => by
        have := hhomog b hb
        cases b
        simpa using this.symm)
    have hLzero : ∀ q, q ≠ currentPlayer s → L.count (⟨q⟩ : Token) = 0 := by
      intro q hq
      refine List.count_eq_zero.2 (fun hmem => ?_)
      exact hq (by simpa using hhomog _ hmem)
    constructor
    · exact hinv.playersNe
    · dsimp only
      split
      · exact hinv.idxLt
      · exact nextPlayerIndex_lt hinv.playersNe
    · dsimp only
      rw [hblen]
      exact hinv.boardLen
    · intro i
      exact hbound hinv.stackBound i
    · intro p hp
      dsimp only at hp ⊢
      have hcon := hinv.conserve p hp
      rw [tokensOf_eq_boardCnt] at hcon ⊢
      rw [setMap_apply]
      by_cases hpp : p.id = currentPlayer s
      · rw [if_pos hpp]
        rw [hpp] at hcon ⊢
        have hcnt := hLcnt (⟨currentPlayer s⟩ : Token)
        omega
      · rw [if_neg hpp]
        have hcnt := hLcnt (⟨p.id⟩ : Token)
        have hz := hLzero p.id hpp
        omega
    · intro hwn p hp
      dsimp only at hwn hp ⊢
      rw [setMap_apply]
      have hlt : s.exited p.id < 5 := hinv.winnerNone hw p hp
      by_cases hpp : p.id = currentPlayer s
      · rw [if_pos hpp]
        split at hwn
        · exact absurd hwn (by simp)
        · rename_i hcond
          rw [setMap_apply, if_pos rfl] at hcond
          omega
      · rw [if_neg hpp]
        exact hlt
    · intro w hww
      dsimp only at hww ⊢
      split at hww
      · rename_i hcond
        obtain rfl := Option.some.inj hww
        refine ⟨hcp, ?_⟩
        exact hcond
      · exact absurd hww (by simp)
  | backward =>
    obtain ⟨hblen, hex0, hcnt, _, _, hbound⟩ := resolveMove_backward hdir hr
    have hexzero : ∀ q, setMap s.exited (currentPlayer s)
        (s.exited (currentPlayer s) + r.exited) q = s.exited q := by
      intro q
      rw [setMap_apply, hex0]
      split
      · rename_i hq
        subst hq
        omega
      · rfl
    have hwnone : (if 5 ≤ setMap s.exited (currentPlayer s)
        (s.exited (currentPlayer s) + r.exited) (currentPlayer s)
        then some (currentPlayer s) else none) = (none : Option PlayerID) := by
      rw [if_neg]
      push_neg
      rw [hexzero]
      obtain ⟨pc, hpc, hpcid⟩ := List.mem_map.1 hcp
      rw [← hpcid]
      exact hinv.winnerNone hw pc hpc
    constructor
    · exact hinv.playersNe
    · simp only [hwnone, Option.isSome_none, Bool.false_eq_true, if_false]
      exact nextPlayerIndex_lt hinv.playersNe
    · simp only [hblen]
      exact hinv.boardLen
    · intro i
      exact hbound hinv.stackBound i
    · intro p hp
      dsimp only at hp ⊢
      have hcon := hinv.conserve p hp
      rw [tokensOf_eq_boardCnt] at hcon ⊢
      rw [hexzero p.id, hcnt (⟨p.id⟩ : Token)]
      exact hcon
    · intro hwn p hp
      dsimp only at hwn hp ⊢
      rw [hexzero p.id]
      exact hinv.winnerNone hw p hp
    · intro w hww
      dsimp only at hww
      rw [hwnone] at hww
      exact absurd hww (by simp)

theorem getLegalActions_of_winner {s : GameState} (h : s.winner ≠ none) :
    getLegalActions s = [] := by
  unfold getLegalActions
  rw [if_pos h]

theorem applyAction_of_winner {s : GameState} (h : s.winner ≠ none) (a : LegalAction) :
    applyAction s a = s := by
  unfold applyAction
  rw [if_pos h]

theorem inv_step {s : GameState} {a : LegalAction} (hinv : Inv s)
    (ha : a ∈ getLegalActions s) : Inv (applyAction s a) := by
  by_cases hw : s.winner = none
  case neg =>
    rw [getLegalActions_of_winner hw] at ha
    exact absurd ha (by simp)
  case pos =>
    unfold applyAction
    rw [if_neg (by simp [hw])]
    cases a with
    | move m => exact inv_applyMove hinv hw (legal_move_mem ha)
    | place => exact inv_applyPlace hinv hw
    | bubble sp ti => exact inv_applyBubble hinv (legal_bubble_mem ha)

theorem reachable_inv {s : GameState} (h : Reachable s) : Inv s := by
  induction h with
  | init players hne => exact inv_init players hne
  | step a hs ha ih => exact inv_step ih ha

/-! ### Placement characterization lemmas -/

theorem spacesFilled_iff {b : Board} {start stop : Nat} :
    spacesFilled b start stop = true ↔
      ∀ k, start ≤ k → k ≤ stop → (b.getD k []).length ≠ 0 := by
  unfold spacesFilled
  rw [List.all_eq_true]
  constructor
  · intro h k h1 h2
    have := h k (List.mem_range'_1.2 ⟨h1, by omega⟩)
    simpa [List.isEmpty_iff, List.length_eq_zero] using this
  · intro h k hk
    obtain ⟨h1, h2⟩ := List.mem_range'_1.1 hk
    simpa [List.isEmpty_iff, List.length_eq_zero] using h k h1 (by omega)

theorem lowestEmptyIndexAux_none {b : Board} {i : Nat} :
    lowestEmptyIndexAux b i = none ↔ ∀ j < b.length, (b.getD j []).length ≠ 0 := by
  induction b generalizing i with
  | nil => simp [lowestEmptyIndexAux]
  | cons hd tl ih =>
    unfold lowestEmptyIndexAux
    by_cases hhd : hd.length = 0
    · rw [if_pos hhd]
      constructor
      · intro h
        exact absurd h (by simp)
      · intro h
        exact absurd (by simpa using hhd) (h 0 (by simp))
    · rw [if_neg hhd]
      rw [ih]
      constructor
      · intro h j hj
        cases j with
        | zero => simpa using hhd
        | succ j' => simpa using h j' (by simpa using hj)
      · intro h j hj
        simpa using h (j + 1) (by simpa using hj)

/-! ### Heuristic-evaluation support lemmas -/

theorem pinned_filter_stack (stack : List Token) (player : PlayerID) :
    (stack.enum.filter (fun q => q.2.player ≠ player ∧ isPinned stack q.1)).length
      = (stack.dropLast.filter (fun t => t.player ≠ player)).length := by
  by_cases hnil : stack = []
  · subst hnil
    simp
  · obtain ⟨A, x, hAx⟩ : ∃ A x, stack = A ++ [x] :=
      ⟨stack.dropLast, stack.getLast hnil, (List.dropLast_concat_getLast hnil).symm⟩
    subst hAx
    have hlen : (A ++ [x]).length = A.length + 1 := by simp
    rw [List.dropLast_concat]
    rw [List.enum_append, List.enumFrom_singleton, List.filter_append]
    have hlast : (List.filter
        (fun q => decide (q.2.player ≠ player ∧ isPinned (A ++ [x]) q.1))
        [(A.length, x)]).length = 0 := by
      have hpin : isPinned (A ++ [x]) A.length = false := by
        unfold isPinned
        rw [hlen]
        simp
      simp [hpin]
    have hmain : (List.filter
        (fun q => decide (q.2.player ≠ player ∧ isPinned (A ++ [x]) q.1)) A.enum)
        = A.enum.filter (fun q => decide (q.2.player ≠ player)) := by
      apply List.filter_congr
      intro q hq
      have hqlt : q.1 < A.length := by
        have := List.fst_lt_add_of_mem_enumFrom (by simpa [List.enum] using hq)
        simpa using this
      have hpin : isPinned (A ++ [x]) q.1 = true := by
        unfold isPinned
        rw [hlen]
        simp
        omega
      simp [hpin]
    rw [List.length_append, hlast, hmain]
    have hmap : (A.enum.filter (fun q => decide (q.2.player ≠ player))).map Prod.snd
        = A.filter (fun t => t.player ≠ player) := by
      have := List.filter_map (p := fun t : Token => decide (t.player ≠ player))
        (f := (Prod.snd : Nat × Token → Token)) A.enum
      rw [List.enum_map_snd] at this
      exact this.symm
    have := congrArg List.length hmap
    rw [List.length_map] at this
    omega

theorem sum_filter_flatten (P : Token → Bool) (b : Board) :
    (b.map (fun stack => (stack.filter P).length)).sum = (b.flatten.filter P).length := by
  induction b with
  | nil => rfl
  | cons hd tl ih => simp [List.flatten_cons, List.filter_append, ih]

/-! ### Claim theorems -/

/-- C1: for every reachable state (from `createInitialState` via
`applyAction` on actions drawn from `getLegalActions`) and every player P,
P's tokens on the board plus `unplaced[P]` plus `exited[P]` equal 7. -/
theorem C1_token_conservation {s : GameState} (hs : Reachable s) :
    ∀ p ∈ s.players, tokensOf p.id s.board + s.unplaced p.id + s.exited p.id = 7 :=
  (reachable_inv hs).conserve

theorem C1_token_conservation_witness :
    tokensOf "RED" (createInitialState twoPlayers).board
      + (createInitialState twoPlayers).unplaced "RED"
      + (createInitialState twoPlayers).exited "RED" = 7 :=
  C1_token_conservation (Reachable.init twoPlayers (by simp [twoPlayers]))
    redInfo (by simp [createInitialState, twoPlayers])

/-- C2: in every reachable state, `winner` is set iff some player has
exited at least 5 tokens; and once `winner` is set, `getLegalActions`
is empty and `applyAction` returns the state unchanged for every action. -/
theorem C2_winner_characterization {s : GameState} (hs : Reachable s) :
    (s.winner ≠ none ↔ ∃ p ∈ s.players, 5 ≤ s.exited p.id) ∧
    (s.winner ≠ none → getLegalActions s = [] ∧ ∀ a, applyAction s a = s) := by
  have hinv := reachable_inv hs
  refine ⟨⟨?_, ?_⟩, fun h => ⟨getLegalActions_of_winner h, fun a => applyAction_of_winner h a⟩⟩
  · intro h
    cases hww : s.winner with
    | none => exact absurd hww h
    | some w =>
      obtain ⟨h1, h2⟩ := hinv.winnerSome w hww
      obtain ⟨p, hp, hpid⟩ := List.mem_map.1 h1
      exact ⟨p, hp, by rw [hpid]; exact h2⟩
  · rintro ⟨p, hp, h5⟩ hwn
    have := hinv.winnerNone hwn p hp
    omega

theorem C2_winner_characterization_witness :
    ¬ ((createInitialState twoPlayers).winner ≠ none) := by
  intro h
  obtain ⟨p, hp, h5⟩ :=
    (C2_winner_characterization (Reachable.init twoPlayers (by simp [twoPlayers]))).1.1 h
  simp [createInitialState] at h5

/-- C7: every reachable state has exactly 8 stacks, each of length at
most 5. -/
theorem C7_stack_bound {s : GameState} (hs : Reachable s) :
    s.board.length = 8 ∧ ∀ i, (s.board.getD i []).length ≤ 5 :=
  ⟨(reachable_inv hs).boardLen, (reachable_inv hs).stackBound⟩

theorem C7_stack_bound_witness :
    (createInitialState twoPlayers).board.length = 8 ∧
      ((createInitialState twoPlayers).board.getD 3 []).length ≤ 5 :=
  ⟨(C7_stack_bound (Reachable.init twoPlayers (by simp [twoPlayers]))).1,
   (C7_stack_bound (Reachable.init twoPlayers (by simp [twoPlayers]))).2 3⟩

theorem resolveMove_forward_total {b : Board} {a : MoveAction} {r : MoveRes}
    (hd : a.dir = Dir.forward) (hc : 1 ≤ a.count) (hr : resolveMove b a = some r) :
    totalTokens r.board + r.exited = totalTokens b := by
  obtain ⟨_, ⟨L, hLlen, _, hLcnt⟩, _⟩ := resolveMove_forward hd hc hr
  have hM : (r.board.flatten : Multiset Token) + (L : Multiset Token)
      = (b.flatten : Multiset Token) := by
    rw [Multiset.ext]
    intro t
    rw [Multiset.count_add, Multiset.coe_count, Multiset.coe_count, Multiset.coe_count]
    have := hLcnt t
    rw [boardCnt_eq_flatten_count, boardCnt_eq_flatten_count] at this
    omega
  have hcard := congrArg Multiset.card hM
  rw [Multiset.card_add, Multiset.coe_card, Multiset.coe_card, Multiset.coe_card] at hcard
  unfold totalTokens
  omega

/-- C4: a forward move conserves tokens between the board and the exited
count (every still-carried token past the last space exits); and in
Scenario A (RED stack of 2 on space index 7, `exited[RED] = 4`), the move
`{from: 7, forward, count: 2}` yields `exited[RED] = 6` and winner RED. -/
theorem C4_forward_exit :
    (∀ (b : Board) (a : MoveAction) (r : MoveRes), a.dir = Dir.forward → 1 ≤ a.count →
      resolveMove b a = some r → totalTokens r.board + r.exited = totalTokens b) ∧
    ((applyAction scenarioA (LegalAction.move ⟨7, Dir.forward, 2⟩)).exited "RED" = 6 ∧
      (applyAction scenarioA (LegalAction.move ⟨7, Dir.forward, 2⟩)).winner = some "RED") :=
  ⟨fun _ _ _ hd hc hr => resolveMove_forward_total hd hc hr, by decide, by decide⟩

theorem C4_forward_exit_witness :
    totalTokens (MoveRes.board ⟨[[]], some Landing.exit, 1⟩) +
        MoveRes.exited ⟨[[]], some Landing.exit, 1⟩
      = totalTokens [[tokenR]] :=
  C4_forward_exit.1 [[tokenR]] ⟨0, Dir.forward, 1⟩ ⟨[[]], some Landing.exit, 1⟩
    rfl (by decide) (by decide)

/-- C5 counterexample: in `c5State` the backward move `{from: 1, backward,
count: 2}` can place only one of its two tokens before running off the
board past space index 0, yet the engine accepts it and applies it
partially (the leftover token returns to the source stack), so the
resulting state differs from the input state. -/
theorem C5_counterexample :
    LegalAction.move ⟨1, Dir.backward, 2⟩ ∈ getLegalActions c5State ∧
    (resolveMove c5State.board ⟨1, Dir.backward, 2⟩).isSome = true ∧
    (applyAction c5State (LegalAction.move ⟨1, Dir.backward, 2⟩)).board
      = [[tokenB, tokenB, tokenB, tokenB, tokenR], [tokenR], [], [], [], [], [], []] ∧
    applyAction c5State (LegalAction.move ⟨1, Dir.backward, 2⟩) ≠ c5State :=
  ⟨by decide, by decide, by decide,
   fun h => absurd (congrArg GameState.board h) (by decide)⟩

/-- C5 (amended): a backward move is rejected (state unchanged) exactly
when its resolution fails, which happens when it places no token outside
the source; an accepted backward move exits nothing, and backward moves
never change any exited count. -/
theorem C5_backward_no_exit (s : GameState) (a : MoveAction) (hd : a.dir = Dir.backward) :
    (resolveMove s.board a = none → applyAction s (LegalAction.move a) = s) ∧
    (∀ r, resolveMove s.board a = some r → r.exited = 0) ∧
    (∀ q, (applyAction s (LegalAction.move a)).exited q = s.exited q) := by
  refine ⟨?_, ?_, ?_⟩
  · intro hnone
    unfold applyAction
    split
    · rfl
    · dsimp only
      unfold applyMove
      rw [hnone]
  · intro r hr
    exact (resolveMove_backward hd hr).2.1
  · intro q
    unfold applyAction
    split
    · rfl
    · dsimp only
      unfold applyMove
      cases hres : resolveMove s.board a with
      | none => rfl
      | some r =>
        dsimp only
        rw [setMap_apply, (resolveMove_backward hd hres).2.1]
        split
        · rename_i hq
          rw [hq]
          omega
        · rfl

theorem C5_backward_no_exit_witness :
    (applyAction c5State (LegalAction.move ⟨1, Dir.backward, 2⟩)).exited "RED"
      = c5State.exited "RED" :=
  (C5_backward_no_exit c5State ⟨1, Dir.backward, 2⟩ rfl).2.2 "RED"

/-- C10: an accepted backward move leaves the board's token multiset
unchanged; the source stack never grows past its original length, and it
ends as its untouched lower part followed by the unplaced remainder of the
carried block, in original order (a suffix of the block). -/
theorem C10_backward_pushback {b : Board} {a : MoveAction} {r : MoveRes}
    (hd : a.dir = Dir.backward) (hr : resolveMove b a = some r) :
    (r.board.flatten : Multiset Token) = (b.flatten : Multiset Token) ∧
    (r.board.getD a.fromIdx []).length ≤ (b.getD a.fromIdx []).length ∧
    (∃ leftover : List Token,
      leftover <:+ (b.getD a.fromIdx []).drop ((b.getD a.fromIdx []).length - a.count) ∧
      r.board.getD a.fromIdx []
        = (b.getD a.fromIdx []).take ((b.getD a.fromIdx []).length - a.count) ++ leftover) := by
  obtain ⟨hblen, hex0, hcnt, hlenle, hleft, hbound⟩ := resolveMove_backward hd hr
  refine ⟨?_, hlenle, hleft⟩
  rw [Multiset.ext]
  intro t
  rw [Multiset.coe_count, Multiset.coe_count]
  have := hcnt t
  rw [boardCnt_eq_flatten_count, boardCnt_eq_flatten_count] at this
  exact this

theorem C10_backward_pushback_witness :
    ((MoveRes.board ⟨[[tokenB, tokenB, tokenB, tokenR, tokenR],
        [tokenR], [], [], [], [], [], []], some (Landing.space 0), 0⟩).getD 1 []).length
      ≤ ((c10Board.getD 1 []) : List Token).length :=
  (C10_backward_pushback (b := c10Board) (a := ⟨1, Dir.backward, 3⟩) rfl (by decide)).2.1

/-- C8: `applyBubble` at a valid `(space, tokenIndex)` re-inserts exactly
that token at the top of its own stack, preserves the order of the other
tokens of that stack and the stack's multiset, and leaves every other
stack, `unplaced`, `exited`, `winner` and `players` unchanged. -/
theorem C8_bubble_frame {s : GameState} {space ti : Nat} {tok : Token}
    (h : (s.board.getD space []).get? ti = some tok) :
    (applyBubble s space ti).board.getD space []
        = (s.board.getD space []).eraseIdx ti ++ [tok] ∧
    (∀ j, j ≠ space → (applyBubble s space ti).board.getD j [] = s.board.getD j []) ∧
    List.Perm ((applyBubble s space ti).board.getD space []) (s.board.getD space []) ∧
    (applyBubble s space ti).unplaced = s.unplaced ∧
    (applyBubble s space ti).exited = s.exited ∧
    (applyBubble s space ti).winner = s.winner ∧
    (applyBubble s space ti).players = s.players := by
  have hti : ti < (s.board.getD space []).length := by
    by_contra hge
    rw [List.get?_eq_getElem?, List.getElem?_eq_none (by omega)] at h
    exact absurd h (by simp)
  have hne : s.board.getD space [] ≠ [] := by
    intro hnil
    rw [hnil] at hti
    simp at hti
  have hsp : space < s.board.length := lt_length_of_getD_ne_nil hne
  have hstack : (applyBubble s space ti).board.getD space []
      = (s.board.getD space []).eraseIdx ti ++ [tok] := by
    unfold applyBubble
    dsimp only
    rw [h, getD_set_self hsp]
    rfl
  refine ⟨hstack, ?_, ?_, rfl, rfl, rfl, rfl⟩
  · intro j hj
    unfold applyBubble
    dsimp only
    exact getD_set_ne (fun hc => hj hc.symm) _
  · rw [hstack]
    exact eraseIdx_append_getElem_perm h

theorem C8_bubble_frame_witness :
    (applyBubble c8State 0 0).board.getD 0 []
      = ((c8State.board.getD 0 []).eraseIdx 0) ++ [tokenR] :=
  (C8_bubble_frame (s := c8State) (by decide)).1

/-- C3: with no winner, the legal actions are exactly: all legal moves
plus Place when placement is legal, if some move is legal; else just
Place if placement is legal; else all Bubble actions (one per pinned
token of the current player).  The move and bubble enumerations are
characterized by membership. -/
theorem C3_legal_actions {s : GameState} (hw : s.winner = none) :
    (getLegalActions s =
      if getMoveOptions s ≠ [] then
        (getMoveOptions s).map LegalAction.move
          ++ (if canPlace s then [LegalAction.place] else [])
      else if canPlace s then [LegalAction.place]
      else (getBubbleOptions s).map (fun b => LegalAction.bubble b.1 b.2)) ∧
    (∀ m : MoveAction, m ∈ getMoveOptions s ↔
      m.fromIdx < s.board.length ∧ 1 ≤ m.count ∧
      m.count ≤ topContiguousCount (s.board.getD m.fromIdx []) (currentPlayer s) ∧
      (resolveMove s.board m).isSome = true) ∧
    (∀ sp ti : Nat, (sp, ti) ∈ getBubbleOptions s ↔
      ∃ tok, (s.board.getD sp []).get? ti = some tok ∧
        tok.player = currentPlayer s ∧ isPinned (s.board.getD sp []) ti = true) :=
  ⟨getLegalActions_eq hw, fun _ => getMoveOptions_mem, fun _ _ => getBubbleOptions_mem⟩

theorem C3_legal_actions_witness :
    getLegalActions (createInitialState twoPlayers) =
      if getMoveOptions (createInitialState twoPlayers) ≠ [] then
        (getMoveOptions (createInitialState twoPlayers)).map LegalAction.move
          ++ (if canPlace (createInitialState twoPlayers) then [LegalAction.place] else [])
      else if canPlace (createInitialState twoPlayers) then [LegalAction.place]
      else (getBubbleOptions (createInitialState twoPlayers)).map
        (fun b => LegalAction.bubble b.1 b.2) :=
  (C3_legal_actions (s := createInitialState twoPlayers) rfl).1

/-- C9: the bot heuristic equals
`6·exited[P] + |legalActions| + ½·(P's tokens on board)
  + (3/2·(pinned opponent tokens) − 4·(max opponent exited))`. -/
theorem C9_heuristic_eval (s : GameState) (player : PlayerID) :
    evaluateState s player
      = 6 * (s.exited player : ℚ) + ((getLegalActions s).length : ℚ)
        + (1 / 2) * (tokensOf player s.board : ℚ)
        + ((3 / 2) * (pinnedOpponentTokens player s.board : ℚ)
            - 4 * (maxOpponentExited s player : ℚ)) := by
  unfold evaluateState opponentPressure
  have hpin : (s.board.map (fun stack =>
      (stack.enum.filter (fun q => q.2.player ≠ player ∧ isPinned stack q.1)).length)).sum
      = pinnedOpponentTokens player s.board := by
    unfold pinnedOpponentTokens
    congr 1
    exact List.map_congr_left (fun stack _ => pinned_filter_stack stack player)
  have hpres : (s.board.map (fun stack =>
      (stack.filter (fun t => t.player = player)).length)).sum
      = tokensOf player s.board := by
    rw [sum_filter_flatten]
    rfl
  have hmax : ((s.players.filter (fun p => p.id ≠ player)).map
      (fun p => s.exited p.id)).foldl max 0 = maxOpponentExited s player := rfl
  dsimp only
  rw [hpin, hpres, hmax]
  have h05 : (0.5 : ℚ) = 1 / 2 := by norm_num
  have h15 : (1.5 : ℚ) = 3 / 2 := by norm_num
  rw [h05, h15]
  ring

/-- C6: placement-destination rule: space index 0 first when spaces 2..7
are occupied and space 1 is free; else space index 7 when spaces 1..7 are
occupied and space 8 is free; otherwise the lowest empty index, or none on
a board with no empty space.  Placement is legal exactly when a
destination exists, the current player has an unplaced token and the
destination stack holds fewer than 5 tokens. -/
theorem C6_placement_rule {s : GameState} (hb : s.board.length = 8) :
    ((spacesFilled s.board 1 6 = true ∧ (s.board.getD 0 []).length = 0) →
        placementDestination s = some 0) ∧
    ((spacesFilled s.board 0 6 = true ∧ (s.board.getD 7 []).length = 0) →
        placementDestination s = some 7) ∧
    (¬(spacesFilled s.board 1 6 = true ∧ (s.board.getD 0 []).length = 0) →
      ¬(spacesFilled s.board 0 6 = true ∧ (s.board.getD 7 []).length = 0) →
      ((∀ d, placementDestination s = some d ↔
          d < s.board.length ∧ (s.board.getD d []).length = 0 ∧
          ∀ k < d, (s.board.getD k []).length ≠ 0) ∧
        (placementDestination s = none ↔
          ∀ j < s.board.length, (s.board.getD j []).length ≠ 0))) ∧
    (canPlace s = true ↔ ∃ d, placementDestination s = some d ∧
      0 < s.unplaced (currentPlayer s) ∧ (s.board.getD d []).length < 5) := by
  refine ⟨?_, ?_, ?_, ?_⟩
  · rintro ⟨hf, h0⟩
    have hle : lowestEmptyIndex s.board = some 0 :=
      lowestEmptyIndexAux_some.2 ⟨0, by omega, rfl, h0, by omega⟩
    unfold placementDestination
    rw [hle]
    dsimp only
    rw [if_pos ⟨hf, h0⟩]
  · rintro ⟨hf, h7⟩
    have h0ne : (s.board.getD 0 []).length ≠ 0 :=
      spacesFilled_iff.1 hf 0 (by omega) (by omega)
    obtain ⟨e, hle⟩ : ∃ e, lowestEmptyIndex s.board = some e := by
      cases hcase : lowestEmptyIndex s.board with
      | none =>
        have := lowestEmptyIndexAux_none.1 hcase 7 (by omega)
        exact absurd h7 this
      | some e => exact ⟨e, rfl⟩
    unfold placementDestination
    rw [hle]
    dsimp only
    rw [if_neg (fun hc => h0ne hc.2), if_pos ⟨hf, h7⟩]
  · intro hn1 hn2
    unfold placementDestination
    cases hcase : lowestEmptyIndex s.board with
    | none =>
      dsimp only
      have hall := lowestEmptyIndexAux_none.1 hcase
      constructor
      · intro d
        constructor
        · intro h
          exact absurd h (by simp)
        · rintro ⟨hd, hz, _⟩
          exact absurd hz (hall d hd)
      · exact ⟨fun _ => hall, fun _ => rfl⟩
    | some e =>
      dsimp only
      rw [if_neg hn1, if_neg hn2]
      obtain ⟨j, hj, hej, hjz, hjmin⟩ := lowestEmptyIndexAux_some.1 hcase
      have hej' : e = j := by omega
      subst hej'
      constructor
      · intro d
        constructor
        · intro h
          obtain rfl := Option.some.inj h
          exact ⟨hj, hjz, hjmin⟩
        · rintro ⟨hd, hz, hmin⟩
          by_cases hde : d = e
          · rw [hde]
          · rcases Nat.lt_or_ge d e with hlt | hge
            · exact absurd hz (hjmin d hlt)
            · exact absurd hjz (hmin e (by omega))
      · constructor
        · intro h
          exact absurd h (by simp)
        · intro h
          exact absurd hjz (h e hj)
  · unfold canPlace
    cases hcase : placementDestination s with
    | none =>
      constructor
      · intro h
        exact absurd h (by simp)
      · rintro ⟨d, hd, _⟩
        exact absurd hd (by simp)
    | some dest =>
      constructor
      · intro h
        rw [decide_eq_true_iff] at h
        exact ⟨dest, rfl, h⟩
      · rintro ⟨d, hd, hu, hlen⟩
        obtain rfl := Option.some.inj hd
        rw [decide_eq_true_iff]
        exact ⟨hu, hlen⟩

theorem C6_placement_rule_witness :
    placementDestination c6State = some 0 :=
  (C6_placement_rule (s := c6State) (by decide)).1 ⟨by decide, by decide⟩

end FiveSlide
